import Mathlib

/-!
# complexity-analyzer: the benchmark relay, its JSON extractor and its performance-series parser

A shallow embedding of `services/gemini.go` and `handlers/analyze.go`.

Conventions of the embedding.

* A Go `string` is modelled by `GoString = List Char`: the sequence of runes a Go
  `range` loop (or `utf8.DecodeRune`) reads from the bytes, a byte that is not part
  of a valid encoding being read as U+FFFD. Every substring the program searches
  for (the newline, the fence marker) is ASCII, so byte offsets and rune offsets
  cut a text at the same places.
* `int` is the 64-bit signed integer of the usual targets, modelled by `Int` with the
  range checks of `strconv.ParseInt` made explicit.
* `float64` is modelled by `Float64`: NaN, the two infinities and the finite values
  `± mant * 2 ^ exp`, kept with an odd mantissa (so `1.5` is `3 * 2 ^ (-1)`).
* Library routines of the Go distribution (`strings`, `unicode`, `fmt`, `strconv`,
  `math`, `os`) are modelled after their documented behaviour, in namespaces named
  after their packages.
-/

set_option autoImplicit false

namespace ComplexityAnalyzer

/-- A Go string, read as its sequence of runes. -/
abbrev GoString := List Char

-- Equality of the results of fallible calls is decidable.
deriving instance DecidableEq for Except

/-! ## package `unicode` / `strings` -/

namespace unicode

/-- Go `unicode.IsSpace`: the Latin-1 cases `\t \n \v \f \r`, space, U+0085, U+00A0, and
the other code points of the `White_Space` table. -/
def IsSpace (r : Char) : Bool :=
  let n := r.toNat
  (0x09 ≤ n && n ≤ 0x0d) || n == 0x20 || n == 0x85 || n == 0xA0 || n == 0x1680 ||
    (0x2000 ≤ n && n ≤ 0x200a) || n == 0x2028 || n == 0x2029 || n == 0x202f ||
    n == 0x205f || n == 0x3000

end unicode

namespace strings

/-- Search loop of `strings.Index`: the least offset, counted from `i`, at which `substr`
starts. -/
def indexFrom (substr : GoString) : GoString → Nat → Option Nat
  | [], i => if substr.isEmpty then some i else none
  | c :: cs, i =>
    if substr.isPrefixOf (c :: cs) then some i else indexFrom substr cs (i + 1)

/-- Go `strings.Index(s, substr)`: offset of the first instance of `substr` in `s`;
`none` stands for Go's `-1`. -/
def Index (s substr : GoString) : Option Nat := indexFrom substr s 0

/-- Search loop of `strings.LastIndex`: the greatest offset, counted from `i`, at which
`substr` starts. -/
def lastIndexFrom (substr : GoString) : GoString → Nat → Option Nat
  | [], i => if substr.isEmpty then some i else none
  | c :: cs, i =>
    match lastIndexFrom substr cs (i + 1) with
    | some j => some j
    | none => if substr.isPrefixOf (c :: cs) then some i else none

/-- Go `strings.LastIndex(s, substr)`: offset of the last instance of `substr` in `s`;
`none` stands for Go's `-1`. -/
def LastIndex (s substr : GoString) : Option Nat := lastIndexFrom substr s 0

/-- Go `strings.Contains(s, substr)`, which is `Index(s, substr) >= 0`. -/
def Contains (s substr : GoString) : Bool := (Index s substr).isSome

/-- Go `strings.TrimLeftFunc(s, f)`. -/
def TrimLeftFunc (s : GoString) (f : Char → Bool) : GoString := s.dropWhile f

/-- Go `strings.TrimRightFunc(s, f)`. -/
def TrimRightFunc (s : GoString) (f : Char → Bool) : GoString :=
  (s.reverse.dropWhile f).reverse

/-- Go `strings.TrimSpace(s)`: `s` without its leading and trailing white space, as
defined by Unicode. -/
def TrimSpace (s : GoString) : GoString :=
  TrimRightFunc (TrimLeftFunc s unicode.IsSpace) unicode.IsSpace

/-- Go `strings.SplitSeq(s, sep)` for a one-rune separator: the pieces of `s` between the
instances of `sep`, in order (`cur` collects the piece being read). A text with `k`
separators has `k + 1` pieces, the last one possibly empty. -/
def splitSeqAux (sep : Char) : GoString → GoString → List GoString
  | [], cur => [cur]
  | c :: cs, cur =>
    if c = sep then cur :: splitSeqAux sep cs [] else splitSeqAux sep cs (cur ++ [c])

/-- Go `strings.SplitSeq(s, "\n")`, collected into the list of the pieces it yields. -/
def SplitSeq (s : GoString) (sep : Char) : List GoString := splitSeqAux sep s []

end strings

/-! ## `float64` and package `math` -/

/-- A `float64` value: NaN, an infinity, or the finite value `± mant * 2 ^ exp`. Finite
values are kept with an odd mantissa (zero is `fin neg 0 0`), so equal values have equal
representations and `fin false 3 (-1)` is `1.5`. -/
inductive Float64
  | nan
  | inf (neg : Bool)
  | fin (neg : Bool) (mant : Nat) (exp : Int)
  deriving DecidableEq, Repr

namespace Float64

/-- Number of binary digits of `n`, by repeated halving (`fuel` bounds the number of
steps; `n` itself is always enough). -/
def bitLen : Nat → Nat → Nat
  | 0, _ => 0
  | fuel + 1, n => if n = 0 then 0 else bitLen fuel (n / 2) + 1

/-- Integer part of the binary logarithm of a positive `n` (and `0` for `n = 0`). -/
def log2 (n : Nat) : Nat := bitLen n n - 1

/-- Position of the lowest set bit of a positive `m`. -/
def lowBitExp (m : Nat) : Nat := log2 (((m ^^^ (m - 1)) + 1) / 2)

/-- The finite value `± m * 2 ^ e`, brought to an odd mantissa. -/
def ofScaled (neg : Bool) (m : Nat) (e : Int) : Float64 :=
  if m = 0 then fin neg 0 0 else fin neg (m >>> lowBitExp m) (e + lowBitExp m)

/-- The integer nearest to `n / d`, ties going to the even one. -/
def roundHalfEven (n d : Nat) : Nat :=
  let q := n / d
  let r := n % d
  if 2 * r < d then q else if d < 2 * r then q + 1 else if q % 2 = 0 then q else q + 1

/-- For positive `num` and `den`, the integer part of the binary logarithm of
`num / den`. -/
def floorLog2 (num den : Nat) : Int :=
  let a := log2 num
  let b := log2 den
  if den * 2 ^ (a - b) ≤ num * 2 ^ (b - a) then (a : Int) - b else (a : Int) - b - 1

/-- IEEE 754 binary64 rounding (to nearest, ties to even) of `± num / den`: 53 significant
bits, least exponent `-1074` (gradual underflow). The flag reports overflow, in which case
the value is the infinity. -/
def round (neg : Bool) (num den : Nat) : Float64 × Bool :=
  if num = 0 then (fin neg 0 0, false)
  else
    let e : Int := max (floorLog2 num den - 52) (-1074)
    let m := roundHalfEven (num * 2 ^ (-e).toNat) (den * 2 ^ e.toNat)
    if 1024 ≤ e + (log2 m : Int) then (inf neg, true) else (ofScaled neg m e, false)

end Float64

/-- Two's complement wrap-around of Go's 64-bit `int`. -/
def wrapInt64 (i : Int) : Int := (i + 2 ^ 63) % 2 ^ 64 - 2 ^ 63

namespace math

/-- Go `math.Ldexp(frac, exp)`, the pure Go routine: `frac * 2 ^ exp`, with the exponent
sums taken in `int` as the routine does. -/
def Ldexp (frac : Float64) (exp : Int) : Float64 :=
  match frac with
  | .nan => .nan
  | .inf neg => .inf neg
  | .fin neg m e =>
    if m = 0 then frac
    else
      -- `frac = ± sig * 2 ^ u` with `1 ≤ sig < 2`
      let u : Int := e + (Float64.log2 m : Int)
      -- `normalize`: a subnormal is scaled by `2 ^ 52`, with `e = -52`
      let exp1 := if u < -1022 then wrapInt64 (exp + -52) else wrapInt64 (exp + 0)
      let u1 := if u < -1022 then u + 52 else u
      let exp2 := wrapInt64 (exp1 + u1)
      if exp2 < -1075 then .fin neg 0 0
      else if exp2 > 1023 then .inf neg
      else
        let k : Int := exp2 - (Float64.log2 m : Int)
        (Float64.round neg (m * 2 ^ k.toNat) (2 ^ (-k).toNat)).1

end math

/-! ## package `strconv` -/

namespace strconv

/-- The two causes carried by a `*strconv.NumError`. -/
inductive NumError
  | ErrSyntax
  | ErrRange
  deriving DecidableEq, Repr

/-- Test `'0' <= c && c <= '9'`. -/
def isDigit (c : Char) : Bool := decide ('0' ≤ c) && decide (c ≤ '9')

/-- Value `c - '0'` of a decimal digit. -/
def digitVal (c : Char) : Nat := c.toNat - 48

/-- Go `lower(c)`, that is `c | ('x' - 'X')`, as a number. -/
def lower (c : Char) : Nat := c.toNat ||| 0x20

/-- Test `'a' <= lower(c) && lower(c) <= 'f'`. -/
def isHexLetter (c : Char) : Bool := decide (97 ≤ lower c) && decide (lower c ≤ 102)

/-- Digit loop of `strconv.ParseUint(s, 10, 64)`. -/
def parseUintLoop : GoString → Nat → Except NumError Nat
  | [], n => .ok n
  | c :: cs, n =>
    if isDigit c then
      if 2 ^ 64 ≤ n * 10 + digitVal c then .error .ErrRange
      else parseUintLoop cs (n * 10 + digitVal c)
    else .error .ErrSyntax

/-- Go `strconv.ParseUint(s, 10, 64)`. -/
def ParseUint (s : GoString) : Except NumError Nat :=
  if s = [] then .error .ErrSyntax else parseUintLoop s 0

/-- Go `strconv.ParseInt(s, 10, 64)`: an optional sign and decimal digits, within
`[-2^63, 2^63 - 1]`. -/
def ParseInt (s : GoString) : Except NumError Int :=
  if s = [] then .error .ErrSyntax
  else
    let neg : Bool := s.head? = some '-'
    let s1 : GoString := if s.head? = some '+' ∨ s.head? = some '-' then s.tail else s
    match ParseUint s1 with
    | .error .ErrSyntax => .error .ErrSyntax
    | .error .ErrRange => .error .ErrRange
    | .ok un =>
      if !neg && decide (2 ^ 63 ≤ un) then .error .ErrRange
      else if neg && decide (2 ^ 63 < un) then .error .ErrRange
      else .ok (if neg then -(un : Int) else (un : Int))

/-- Go `strconv.Atoi(s)` on a 64-bit target; its fast path and its fall-back
`ParseInt(s, 10, 0)` accept the same texts with the same values. -/
def Atoi (s : GoString) : Except NumError Int := ParseInt s

/-- Go `commonPrefixLenIgnoreCase(s, prefix)` for a lower-case `pre`. -/
def commonPrefixLenIgnoreCase : GoString → GoString → Nat
  | c :: s, p :: pre =>
    let c1 : Char := if 'A' ≤ c ∧ c ≤ 'Z' then Char.ofNat (c.toNat + 32) else c
    if c1 = p then 1 + commonPrefixLenIgnoreCase s pre else 0
  | _, _ => 0

/-- Go `special(s)`: the texts for the infinities and NaN, with the count of runes
taken. -/
def special (s : GoString) : Option (Float64 × Nat) :=
  match s with
  | [] => none
  | c :: t =>
    if c = '+' ∨ c = '-' ∨ c = 'i' ∨ c = 'I' then
      let signed : Bool := c = '+' ∨ c = '-'
      let n := commonPrefixLenIgnoreCase (if signed then t else s) "infinity".toList
      let n := if 3 < n ∧ n < 8 then 3 else n
      if n = 3 ∨ n = 8 then some (.inf (c = '-'), (if signed then 1 else 0) + n) else none
    else if c = 'n' ∨ c = 'N' then
      if commonPrefixLenIgnoreCase s "nan".toList = 3 then some (.nan, 3) else none
    else none

/-- Scan loop of `underscoreOK`; `saw` is one of `^`, `0`, `_`, `!`. -/
def underscoreOKLoop (hex : Bool) : GoString → Char → Bool
  | [], saw => saw != '_'
  | c :: cs, saw =>
    if isDigit c || (hex && isHexLetter c) then underscoreOKLoop hex cs '0'
    else if c = '_' then
      if saw != '0' then false else underscoreOKLoop hex cs '_'
    else if saw = '_' then false
    else underscoreOKLoop hex cs '!'

/-- Go `underscoreOK(s)`: underscores only between digits, or between a base prefix and
a digit. -/
def underscoreOK (s : GoString) : Bool :=
  let s1 : GoString := if s.head? = some '-' ∨ s.head? = some '+' then s.tail else s
  match s1 with
  | '0' :: x :: t =>
    if lower x = 98 ∨ lower x = 111 ∨ lower x = 120 then
      underscoreOKLoop (lower x = 120) t '0'
    else underscoreOKLoop false s1 '^'
  | _ => underscoreOKLoop false s1 '^'

/-- Variables of the mantissa loop of `readFloat`. `mant` is the integer written by all
the digits read and `frac` the number of them after the point. -/
structure Mantissa where
  sawdot : Bool
  sawdigits : Bool
  underscores : Bool
  mant : Nat
  frac : Nat
  deriving DecidableEq, Repr

/-- Mantissa loop of `readFloat`; returns the variables and the unread text. -/
def readMantissa (hex : Bool) : GoString → Mantissa → Mantissa × GoString
  | [], st => (st, [])
  | c :: cs, st =>
    if c = '_' then readMantissa hex cs { st with underscores := true }
    else if c = '.' then
      if st.sawdot then (st, c :: cs) else readMantissa hex cs { st with sawdot := true }
    else if isDigit c then
      readMantissa hex cs { st with
        sawdigits := true
        mant := st.mant * (if hex then 16 else 10) + digitVal c
        frac := if st.sawdot then st.frac + 1 else st.frac }
    else if hex && isHexLetter c then
      readMantissa hex cs { st with
        sawdigits := true
        mant := st.mant * 16 + (lower c - 97 + 10)
        frac := if st.sawdot then st.frac + 1 else st.frac }
    else (st, c :: cs)

/-- Exponent digit loop of `readFloat`: digits and underscores, the value no longer
growing once it has reached 10000. -/
def readExpDigits : GoString → Nat → Bool → Nat × Bool × GoString
  | [], e, u => (e, u, [])
  | c :: cs, e, u =>
    if c = '_' then readExpDigits cs e true
    else if isDigit c then readExpDigits cs (if e < 10000 then e * 10 + digitVal c else e) u
    else (e, u, c :: cs)

/-- What `readFloat` has read: sign, base, mantissa digits, exponent and the unread
text. The number read is `± mant * b ^ (-frac) * c ^ exp`, with `b = 10`, `c = 10` for a
decimal text and `b = 16`, `c = 2` for a hexadecimal one. -/
structure FloatLit where
  neg : Bool
  hex : Bool
  mant : Nat
  frac : Nat
  exp : Int
  rest : GoString
  deriving DecidableEq, Repr

/-- Go `readFloat(s)`: `none` stands for `ok == false`. -/
def readFloat (s : GoString) : Option FloatLit :=
  if s = [] then none
  else
    let neg : Bool := s.head? = some '-'
    let s1 : GoString := if s.head? = some '+' ∨ s.head? = some '-' then s.tail else s
    let hex : Bool :=
      match s1 with
      | '0' :: x :: _ :: _ => lower x = 120
      | _ => false
    let s2 : GoString := if hex then s1.drop 2 else s1
    let (st, s3) := readMantissa hex s2 ⟨false, false, false, 0, 0⟩
    if !st.sawdigits then none
    else
      let expChar : Nat := if hex then 112 else 101
      let done (e : Int) (u : Bool) (rest : GoString) : Option FloatLit :=
        if u && !underscoreOK (s.take (s.length - rest.length)) then none
        else some ⟨neg, hex, st.mant, st.frac, e, rest⟩
      match s3 with
      | c :: s4 =>
        if lower c = expChar then
          if s4 = [] then none
          else
            let esign : Int := if s4.head? = some '-' then -1 else 1
            let s5 : GoString :=
              if s4.head? = some '+' ∨ s4.head? = some '-' then s4.tail else s4
            match s5 with
            | d :: _ =>
              if isDigit d then
                let (e, u, s6) := readExpDigits s5 0 st.underscores
                done (esign * (e : Int)) u s6
              else none
            | [] => none
        else if hex then none
        else done 0 st.underscores s3
      | [] => if hex then none else done 0 st.underscores s3

/-- The `float64` nearest to the number a `FloatLit` denotes, with the overflow flag. -/
def FloatLit.toFloat64 (l : FloatLit) : Float64 × Bool :=
  let k : Int := if l.hex then l.exp - 4 * (l.frac : Int) else l.exp - (l.frac : Int)
  let b : Nat := if l.hex then 2 else 10
  Float64.round l.neg (l.mant * b ^ k.toNat) (b ^ (-k).toNat)

/-- Go `strconv.ParseFloat(s, 64)`: the whole of `s` is a floating-point text; the
result is the nearest `float64`, and a text beyond the range is an error. -/
def ParseFloat (s : GoString) : Except NumError Float64 :=
  match special s with
  | some (v, n) => if n = s.length then .ok v else .error .ErrSyntax
  | none =>
    match readFloat s with
    | none => .error .ErrSyntax
    | some l =>
      if l.rest ≠ [] then .error .ErrSyntax
      else if l.toFloat64.2 then .error .ErrRange
      else .ok l.toFloat64.1

end strconv

/-! ## package `fmt`: the scanner behind `Sscanf` -/

namespace fmt

/-- Go `hugeWid`, `1 << 30`: the scanner reads no rune beyond this count. -/
def hugeWid : Nat := 1073741824

/-- Go `fmt.isSpace`, the scanner's own table of space runes. -/
def isSpace (r : Char) : Bool :=
  let n := r.toNat
  if 65536 ≤ n then false
  else
    (0x09 ≤ n && n ≤ 0x0d) || n == 0x20 || n == 0x85 || n == 0xA0 || n == 0x1680 ||
      (0x2000 ≤ n && n ≤ 0x200a) || (0x2028 ≤ n && n ≤ 0x2029) || n == 0x202f ||
      n == 0x205f || n == 0x3000

/-- Go `decimalDigits`. -/
def decimalDigits : GoString := "0123456789".toList

/-- Go `hexadecimalDigits`. -/
def hexadecimalDigits : GoString := "0123456789aAbBcCdDeEfF".toList

/-- Go `sign`. -/
def sign : GoString := "+-".toList

/-- Go `period`. -/
def period : GoString := ".".toList

/-- Go `exponent`. -/
def exponent : GoString := "eEpP".toList

/-- The scanner state `ss`: the unread input, the number of runes read (`count`), and the
token buffer `buf`. The limits `argLimit` and `limit` both stay at `hugeWid`, because the
format carries no width. -/
structure ss where
  rs : GoString
  count : Nat
  buf : GoString
  deriving DecidableEq, Repr

namespace ss

/-- Go `(*ss).getRune`: the next rune, or `none` (Go's `eof`) at the end of the input or
at the rune limit. -/
def getRune (s : ss) : Option (Char × ss) :=
  if hugeWid ≤ s.count then none
  else
    match s.rs with
    | [] => none
    | r :: rest => some (r, { s with rs := rest, count := s.count + 1 })

/-- Go `(*ss).peek(ok)`: whether the next rune is one of `ok`, reading nothing. -/
def peek (s : ss) (ok : GoString) : Bool :=
  match s.getRune with
  | none => false
  | some (r, _) => ok.contains r

/-- Loop of `(*ss).SkipSpace` with `nlIsSpace = false`, over the unread input and the
count. -/
def skipSpaceLoop : GoString → Nat → Except String (GoString × Nat)
  | [], count => .ok ([], count)
  | r :: rest, count =>
    if hugeWid ≤ count then .ok (r :: rest, count)
    else if r = '\r' && peek ⟨rest, count + 1, []⟩ ['\n'] then skipSpaceLoop rest (count + 1)
    else if r = '\n' then .error "unexpected newline"
    else if !isSpace r then .ok (r :: rest, count)
    else skipSpaceLoop rest (count + 1)

/-- Go `(*ss).SkipSpace`. -/
def SkipSpace (s : ss) : Except String ss :=
  match skipSpaceLoop s.rs s.count with
  | .error e => .error e
  | .ok (rs, count) => .ok { s with rs := rs, count := count }

/-- Go `(*ss).notEOF`: fails with `io.EOF` when no rune can be read. -/
def notEOF (s : ss) : Except String Unit :=
  match s.getRune with
  | none => .error "EOF"
  | some _ => .ok ()

/-- Go `(*ss).accept(ok)`: takes the next rune into `buf` when it is one of `ok`, and
otherwise leaves the state as it was. -/
def accept (s : ss) (ok : GoString) : Bool × ss :=
  match s.getRune with
  | none => (false, s)
  | some (r, s1) => if ok.contains r then (true, { s1 with buf := s1.buf ++ [r] }) else (false, s)

/-- The loop `for s.accept(ok) {}`, over the unread input, the count and the buffer. -/
def acceptLoop (ok : GoString) : GoString → Nat → GoString → GoString × Nat × GoString
  | [], count, buf => ([], count, buf)
  | r :: rest, count, buf =>
    if hugeWid ≤ count then (r :: rest, count, buf)
    else if ok.contains r then acceptLoop ok rest (count + 1) (buf ++ [r])
    else (r :: rest, count, buf)

/-- The loop `for s.accept(ok) {}`. -/
def acceptAll (s : ss) (ok : GoString) : ss :=
  match acceptLoop ok s.rs s.count s.buf with
  | (rs, count, buf) => ⟨rs, count, buf⟩

/-- Go `(*ss).scanNumber(digits, false)`: at least one digit, then all that follow. -/
def scanNumber (s : ss) (digits : GoString) : Except String (GoString × ss) :=
  match s.notEOF with
  | .error e => .error e
  | .ok _ =>
    if (s.accept digits).1 then
      .ok (((s.accept digits).2.acceptAll digits).buf, (s.accept digits).2.acceptAll digits)
    else .error "expected integer"

/-- Text of a `strconv` error as the scanner reports it. -/
def numErrorText : strconv.NumError → String
  | .ErrSyntax => "invalid syntax"
  | .ErrRange => "value out of range"

/-- Go `(*ss).scanInt(verb, bitSize)` for the verb `d` and 64 bits: white space, an
optional sign, decimal digits, converted by `strconv.ParseInt(tok, 10, 64)`. -/
def scanInt (s : ss) : Except String (Int × ss) :=
  match s.SkipSpace with
  | .error e => .error e
  | .ok s1 =>
    match s1.notEOF with
    | .error e => .error e
    | .ok _ =>
      match (s1.accept sign).2.scanNumber decimalDigits with
      | .error e => .error e
      | .ok (tok, s2) =>
        match strconv.ParseInt tok with
        | .error e => .error (numErrorText e)
        | .ok i => .ok (i, s2)

/-- The conjunction `... && s.accept(ok)`: the next rune is tried only when what stands to
the left holds. -/
def andAccept (r : Bool × ss) (ok : GoString) : Bool × ss :=
  if r.1 then r.2.accept ok else (false, r.2)

/-- The section `digits?`, `decimal point?`, `fraction?` of `(*ss).floatToken`. -/
def floatMantissa (s : ss) (digits : GoString) : ss :=
  let p := (s.acceptAll digits).accept period
  if p.1 then p.2.acceptAll digits else p.2

/-- The section `exponent?` of `(*ss).floatToken`. -/
def floatExponent (s : ss) (exp : GoString) : ss :=
  let e := s.accept exp
  if e.1 then (e.2.accept sign).2.acceptAll (decimalDigits ++ "_".toList) else e.2

/-- The digits of `(*ss).floatToken`, from the test for the prefix `0x` on: hexadecimal
digits and the exponent letters `pP` after that prefix, decimal digits and `eEpP`
otherwise; the underscore counts as a digit. -/
def floatNumber (s : ss) : ss :=
  let x := andAccept (s.accept "0".toList) "xX".toList
  if x.1 then
    floatExponent (floatMantissa x.2 (hexadecimalDigits ++ "_".toList)) "pP".toList
  else floatExponent (floatMantissa x.2 (decimalDigits ++ "_".toList)) exponent

/-- The section `Inf?` of `(*ss).floatToken`, after the optional sign. -/
def floatInf (s : ss) : Bool × ss :=
  andAccept (andAccept ((s.accept sign).2.accept "iI".toList) "nN".toList) "fF".toList

/-- The section `NaN?` of `(*ss).floatToken`. -/
def floatNaN (s : ss) : Bool × ss :=
  andAccept (andAccept (s.accept "nN".toList) "aA".toList) "nN".toList

/-- Go `(*ss).floatToken`: the text of a floating-point number starting here, without
checking that it is well formed. The state after it is returned with the token. -/
def floatToken (s : ss) : GoString × ss :=
  let n := floatNaN { s with buf := [] }
  if n.1 then (n.2.buf, n.2)
  else
    let i := floatInf n.2
    if i.1 then (i.2.buf, i.2) else ((floatNumber i.2).buf, floatNumber i.2)

end ss

/-- Go `indexRune(s, r)`; `none` stands for `-1`. -/
def indexRune : GoString → Char → Option Nat
  | [], _ => none
  | c :: cs, r => if c = r then some 0 else (indexRune cs r).map (· + 1)

/-- Go `hasX(s)`. -/
def hasX (s : GoString) : Bool := s.any fun c => c = 'x' || c = 'X'

/-- Go `(*ss).convertFloat(str, 64)`: `strconv.ParseFloat`, and for a decimal mantissa
with a binary exponent (`1.5p3`) the mantissa scaled by `math.Ldexp`. -/
def convertFloat (str : GoString) : Except String Float64 :=
  match indexRune str 'p' with
  | some p =>
    if !hasX str then
      match strconv.ParseFloat (str.take p) with
      | .error e => .error (ss.numErrorText e)
      | .ok f =>
        match strconv.Atoi (str.drop (p + 1)) with
        | .error e => .error (ss.numErrorText e)
        | .ok m => .ok (math.Ldexp f m)
    else
      match strconv.ParseFloat str with
      | .error e => .error (ss.numErrorText e)
      | .ok f => .ok f
  | none =>
    match strconv.ParseFloat str with
    | .error e => .error (ss.numErrorText e)
    | .ok f => .ok f

/-- Go `(*ss).scanOne(verb, arg)` for the verb `d` and an `*int` argument. -/
def ss.scanOneInt (s : ss) : Except String (Int × ss) :=
  ss.scanInt { s with buf := [] }

/-- Go `(*ss).scanOne(verb, arg)` for the verb `f` and a `*float64` argument. -/
def ss.scanOneFloat (s : ss) : Except String (Float64 × ss) :=
  match ss.SkipSpace { s with buf := [] } with
  | .error e => .error e
  | .ok s1 =>
    match s1.notEOF with
    | .error e => .error e
    | .ok _ =>
      match convertFloat s1.floatToken.1 with
      | .error e => .error e
      | .ok f => .ok (f, s1.floatToken.2)

/-- Go `(*ss).advance` on the literal `,` of the format: the next input rune must be a
comma. -/
def ss.advanceComma (s : ss) : Except String ss :=
  match s.getRune with
  | none => .error "unexpected EOF"
  | some (r, s1) => if r = ',' then .ok s1 else .error "input does not match format"

/-- Go `fmt.Sscanf(str, "%d,%f", &size, &timeMs)`: `doScanf` run over this format. The
result is the pair stored through the two pointers when `err == nil`, and the error
otherwise. Input left over after the second verb is not looked at. -/
def Sscanf (str : GoString) : Except String (Int × Float64) :=
  match ss.SkipSpace ⟨str, 0, []⟩ with
  | .error e => .error e
  | .ok s1 =>
    match s1.scanOneInt with
    | .error e => .error e
    | .ok (size, s2) =>
      match s2.advanceComma with
      | .error e => .error e
      | .ok s3 =>
        match s3.SkipSpace with
        | .error e => .error e
        | .ok s4 =>
          match s4.scanOneFloat with
          | .error e => .error e
          | .ok (timeMs, _) => .ok (size, timeMs)

end fmt

/-! ## `services/gemini.go`: `extractJSON` -/

/-- The markdown fence marker, three backticks. -/
def fence : GoString := "```".toList

/-- The one-rune text searched by `strings.Index(text, "\n")`. -/
def newline : GoString := ['\n']

/-- Go `extractJSON` (`services/gemini.go`, lines 171-183). -/
def extractJSON (text : GoString) : GoString :=
  let text :=
    if strings.Contains text fence then
      let text :=
        match strings.Index text newline with
        | some start => text.drop (start + 1)
        | none => text
      match strings.LastIndex text fence with
      | some fin => text.take fin
      | none => text
    else text
  strings.TrimSpace text

/-! ## `services/gemini.go`: the data model and the performance-series parser -/

/-- Go `PerformancePoint` (`services/gemini.go`, lines 25-28). -/
structure PerformancePoint where
  Size : Int
  Time : Float64
  deriving DecidableEq, Repr

/-- Go `AnalysisResult` (`services/gemini.go`, lines 17-23). -/
structure AnalysisResult where
  Complexity : GoString
  Confidence : Float64
  StaticAnalysis : List GoString
  TestCode : GoString
  PerformanceData : List PerformancePoint
  deriving DecidableEq, Repr

/-- The loop of `runPerformanceTest` over the lines (`services/gemini.go`, lines 210-225):
each line is trimmed, a blank line is skipped, and a line that `Sscanf` reads without
error appends its point to `perfData`. -/
def parseLines : List GoString → List PerformancePoint → List PerformancePoint
  | [], perfData => perfData
  | line :: rest, perfData =>
    let line := strings.TrimSpace line
    if line = [] then parseLines rest perfData
    else
      match fmt.Sscanf line with
      | .ok (size, timeMs) => parseLines rest (perfData ++ [⟨size, timeMs⟩])
      | .error _ => parseLines rest perfData

/-- The parser step of `runPerformanceTest` (`services/gemini.go`, lines 207-231), run on
the captured output of a subprocess that exited without error. -/
def parsePerformance (output : GoString) : Except String (List PerformancePoint) :=
  let perfData := parseLines (strings.SplitSeq output '\n') []
  if perfData.length = 0 then .error "no performance data parsed" else .ok perfData

/-! ## package `os`: the file system as explicit state -/

namespace os

/-- The part of the file system the harness acts on: the existing directories and the
existing files with their contents, each named by its path. -/
structure FileSystem where
  dirs : List GoString
  files : List (GoString × GoString)
  deriving DecidableEq, Repr

/-- Path `q` lies inside the directory `p`: it is `p`, a separator, and more. -/
def inside (p q : GoString) : Bool := (p ++ ['/']).isPrefixOf q

/-- Go `os.MkdirTemp("", "complexity-test-*")`. Its outcome, `made`, is either an error or
the path of the directory it creates; `os.Mkdir` creates no directory at a path that
exists already. -/
def MkdirTemp (made : Except String GoString) (fs : FileSystem) :
    Except String (GoString × FileSystem) :=
  match made with
  | .error e => .error e
  | .ok name =>
    if name ∈ fs.dirs ∨ name ∈ fs.files.map Prod.fst then .error "file exists"
    else .ok (name, { fs with dirs := name :: fs.dirs })

/-- Go `os.WriteFile(name, data, 0644)`. Its outcome, `failed`, is `none` when the file
was written, and otherwise the error together with what the call left at `name` (nothing,
or a file with part of the data). -/
def WriteFile (failed : Option (String × Option GoString)) (fs : FileSystem)
    (name data : GoString) : Option String × FileSystem :=
  let others := fs.files.filter fun f => f.1 ≠ name
  match failed with
  | none => (none, { fs with files := (name, data) :: others })
  | some (e, none) => (some e, fs)
  | some (e, some left) => (some e, { fs with files := (name, left) :: others })

/-- Path `d` is outside the directory `p`: it is neither `p` nor inside it. -/
def outside (p d : GoString) : Bool := !(decide (d = p) || inside p d)

/-- Go `os.RemoveAll(path)`: removes `path` and everything inside it, as far as it can. Its
outcome, `failed`, is `none` when all of it was removed, and otherwise the error together
with the test that tells which of the paths at or inside `path` the call could not remove
and left in place. -/
def RemoveAll (failed : Option (String × (GoString → Bool))) (fs : FileSystem)
    (path : GoString) : Option String × FileSystem :=
  match failed with
  | none =>
    (none,
      { dirs := fs.dirs.filter fun d => outside path d
        files := fs.files.filter fun f => outside path f.1 })
  | some (e, left) =>
    (some e,
      { dirs := fs.dirs.filter fun d => outside path d || left d
        files := fs.files.filter fun f => outside path f.1 || left f.1 })

end os

/-! ## `services/gemini.go`: `runPerformanceTest` and `AnalyzeWithGemini` -/

/-- What the host does for one call of `runPerformanceTest` that comes back: the outcome
of `os.MkdirTemp`, the outcome of `os.WriteFile`, the subprocess `go run testFile` under
its ten-minute deadline, and the outcome of the deferred `os.RemoveAll`. The subprocess
(the Go tool and the generated program it builds and runs) gives the combined output, the
error of `cmd.CombinedOutput()` (a non-zero exit or the deadline), if any, and the file
system as it leaves it: it may create and remove whatever it likes, inside the scratch
directory or elsewhere. A call of `cmd.CombinedOutput()` that never comes back (a process
that outlives the kill and keeps the output pipe open) has no outcome, and what is said
of `runPerformanceTest` is said of the calls that return. -/
structure Host where
  mkdirTemp : Except String GoString
  writeFile : Option (String × Option GoString)
  goRun : os.FileSystem → GoString → GoString × Option String × os.FileSystem
  removeAll : Option (String × (GoString → Bool))

/-- The body of `runPerformanceTest` after the scratch directory exists
(`services/gemini.go`, lines 192-231). -/
def runPerformanceTestBody (h : Host) (fs : os.FileSystem) (tmpDir testCode : GoString) :
    Except String (List PerformancePoint) × os.FileSystem :=
  let testFile := tmpDir ++ "/main.go".toList
  match os.WriteFile h.writeFile fs testFile testCode with
  | (some e, fs1) => (.error ("failed to write test file: " ++ e), fs1)
  | (none, fs1) =>
    match h.goRun fs1 testFile with
    | (output, some e, fs2) =>
      (.error ("failed to run test: " ++ e ++ "\nOutput: " ++ String.mk output), fs2)
    | (output, none, fs2) => (parsePerformance output, fs2)

/-- Go `runPerformanceTest` (`services/gemini.go`, lines 185-232). The deferred
`os.RemoveAll(tmpDir)` runs on every return that follows the creation of the
directory, and its error is dropped. -/
def runPerformanceTest (h : Host) (fs : os.FileSystem) (testCode : GoString) :
    Except String (List PerformancePoint) × os.FileSystem :=
  match os.MkdirTemp h.mkdirTemp fs with
  | .error e => (.error ("failed to create temp dir: " ++ e), fs)
  | .ok (tmpDir, fs1) =>
    let r := runPerformanceTestBody h fs1 tmpDir testCode
    (r.1, (os.RemoveAll h.removeAll r.2 tmpDir).2)

/-- The subprocess of the host `h` leaves the directories outside `tmpDir` as they are:
whatever the file system and the program file it is run on, a path outside `tmpDir` is a
directory after the run exactly when it was one before. -/
def leavesOtherDirectories (h : Host) (tmpDir : GoString) : Prop :=
  ∀ (fs : os.FileSystem) (file d : GoString), os.outside tmpDir d = true →
    (d ∈ (h.goRun fs file).2.2.dirs ↔ d ∈ fs.dirs)

/-- The constant text of the prompt around its two `%s` verbs. -/
structure PromptTemplate where
  head : GoString
  middle : GoString
  tail : GoString

/-- Go `buildAnalysisPrompt` (`services/gemini.go`, lines 77-169):
`fmt.Sprintf(template, language, code)`. -/
def buildAnalysisPrompt (t : PromptTemplate) (code language : GoString) : GoString :=
  t.head ++ language ++ t.middle ++ code ++ t.tail

/-- What lies outside the program for one call of `AnalyzeWithGemini`: the environment
variable, the model service, the JSON decoder and the host of the benchmark. A response
is the list of its candidates, each the list of the parts of its `Content` as `%v` prints
them. A response whose first candidate has no `Content` at all (a nil pointer, on which
the test of line 54 panics instead of returning) is not among the responses
described. -/
structure Env where
  apiKey : GoString
  newClient : Option String
  template : PromptTemplate
  generateContent : GoString → Except String (List (List GoString))
  unmarshal : GoString → Except String AnalysisResult
  host : Host

/-- Go `AnalyzeWithGemini` (`services/gemini.go`, lines 30-75). -/
def AnalyzeWithGemini (env : Env) (code language : GoString) (fs : os.FileSystem) :
    Except String AnalysisResult × os.FileSystem :=
  if env.apiKey = [] then (.error "GEMINI_API_KEY environment variable not set", fs)
  else
    match env.newClient with
    | some e => (.error e, fs)
    | none =>
      match env.generateContent (buildAnalysisPrompt env.template code language) with
      | .error e => (.error e, fs)
      | .ok [] => (.error "no response from Gemini", fs)
      | .ok ([] :: _) => (.error "no response from Gemini", fs)
      | .ok ((part :: _) :: _) =>
        match env.unmarshal (extractJSON part) with
        | .error e => (.error ("failed to parse Gemini response: " ++ e), fs)
        | .ok result =>
          match runPerformanceTest env.host fs result.TestCode with
          | (.error _, fs1) => (.ok { result with PerformanceData := [] }, fs1)
          | (.ok perfData, fs1) => (.ok { result with PerformanceData := perfData }, fs1)

/-! ## `handlers/analyze.go`: `AnalyzeCode` -/

/-- Go `AnalyzeRequest` (`handlers/analyze.go`, lines 9-12). -/
structure AnalyzeRequest where
  Code : GoString
  Language : GoString
  deriving DecidableEq, Repr

/-- The body of a response: the JSON map with the key `error`, the JSON of the analysis
result, or the plain text of an error the handler returned to the framework. -/
inductive Payload
  | error (msg : String)
  | result (r : AnalysisResult)
  | text (msg : String)
  deriving DecidableEq, Repr

/-- A response of the handler: the status code and the body. -/
structure Response where
  status : Nat
  body : Payload
  deriving DecidableEq, Repr

/-- What a run of the handler leaves: the response, the state of the world the service
acts on, and the calls made to `services.AnalyzeWithGemini`, in order, each with its
arguments `(code, language)`. -/
structure Handled (σ : Type) where
  response : Response
  world : σ
  calls : List (GoString × GoString)

/-- The text by which `encoding/json` names a `float64` it cannot encode: NaN and the
infinities have no JSON form. -/
def Float64.jsonUnsupported : Float64 → Option String
  | .nan => some "NaN"
  | .inf false => some "+Inf"
  | .inf true => some "-Inf"
  | .fin _ _ _ => none

/-- The error of `json.Marshal` on an `AnalysisResult`, if any: the first `float64` without
JSON form, in the order of the fields (the confidence, then the times of the points). -/
def AnalysisResult.marshalError (r : AnalysisResult) : Option String :=
  ((r.Confidence :: r.PerformanceData.map (·.Time)).findSome? Float64.jsonUnsupported).map
    ("json: unsupported value: " ++ ·)

/-- Go `AnalyzeCode` (`handlers/analyze.go`, lines 27-49). `parsed` is the outcome of
`c.BodyParser(&req)` and `svc` is `services.AnalyzeWithGemini`. When `c.JSON(result)`
cannot encode the result it returns the error, and the default error handler of the
framework answers with status 500 and the text of the error. -/
def AnalyzeCode {σ : Type} (svc : GoString → GoString → σ → Except String AnalysisResult × σ)
    (parsed : Except String AnalyzeRequest) (w : σ) : Handled σ :=
  match parsed with
  | .error _ => ⟨⟨400, .error "Invalid request body"⟩, w, []⟩
  | .ok req =>
    if req.Code = [] then ⟨⟨400, .error "Code is required"⟩, w, []⟩
    else
      match svc req.Code req.Language w with
      | (.error e, w1) => ⟨⟨500, .error e⟩, w1, [(req.Code, req.Language)]⟩
      | (.ok result, w1) =>
        match result.marshalError with
        | some e => ⟨⟨500, .text e⟩, w1, [(req.Code, req.Language)]⟩
        | none => ⟨⟨200, .result result⟩, w1, [(req.Code, req.Language)]⟩

/-- The text the fenced case of the extractor is described to keep, following the words of
the contract: what remains of `text` once everything up to and including its first
newline and everything from its last fence marker onward have been removed. -/
def fencedRemainder (text : GoString) : GoString :=
  let start := match strings.Index text newline with
    | some i => i + 1
    | none => 0
  let stop := match strings.LastIndex text fence with
    | some j => j
    | none => text.length
  (text.take stop).drop start

/-- Whether the last fence marker of `text` comes after its first newline (which is also
so when `text` has no newline). -/
def lastFenceAfterFirstLine (text : GoString) : Bool :=
  match strings.Index text newline, strings.LastIndex text fence with
  | some i, some j => decide (i < j)
  | some _, none => false
  | none, _ => true

/-- The text after the first line: what follows the first newline of `text`, or all of
`text` when it has no newline. -/
def afterFirstLine (text : GoString) : GoString :=
  match strings.Index text newline with
  | some i => text.drop (i + 1)
  | none => text

/-- The point one trimmed line gives, if `Sscanf` reads it without error. -/
def scanLine (line : GoString) : Option PerformancePoint :=
  match fmt.Sscanf line with
  | .ok (size, timeMs) => some ⟨size, timeMs⟩
  | .error _ => none

/-- The series the parser is described to give, following the words of the contract: the
output is split on the newline, each line is trimmed, blank lines are left out, and the
lines that scan give their points, in the order of the lines. -/
def scannedPoints (output : GoString) : List PerformancePoint :=
  (((strings.SplitSeq output '\n').map strings.TrimSpace).filter (· ≠ [])).filterMap scanLine

/-- The slice a call returns: the series when there is no error, and `nil` with an
error. -/
def returnedSeries : Except String (List PerformancePoint) → List PerformancePoint
  | .ok series => series
  | .error _ => []

/-- Whether `strconv.ParseInt` accepts a text. -/
def isIntegerText (s : GoString) : Bool :=
  match strconv.ParseInt s with
  | .ok _ => true
  | .error _ => false

/-- Whether `strconv.ParseFloat` accepts a text. -/
def isNumberText (s : GoString) : Bool :=
  match strconv.ParseFloat s with
  | .ok _ => true
  | .error _ => false

/-- A line is exactly of the two-field form `<integer>,<number>`, following the words of
the contract: one of its commas has an integer text as all that precedes it and a number
text as all that follows it. -/
def exactTwoFields (line : GoString) : Bool :=
  (List.range line.length).any fun i =>
    line.get? i == some ',' && isIntegerText (line.take i) && isNumberText (line.drop (i + 1))

/-- A line begins with the two-field form: an integer text, a comma, optional white
space, and a text the scanner converts to a `float64`; what follows is arbitrary. The
fields have the values `size` and `timeMs`. -/
def beginsTwoFields (line : GoString) (size : Int) (timeMs : Float64) : Prop :=
  ∃ tok sp ftok rest : GoString, line = tok ++ ',' :: (sp ++ (ftok ++ rest)) ∧
    strconv.ParseInt tok = .ok size ∧ (∀ c ∈ sp, fmt.isSpace c = true) ∧
    fmt.convertFloat ftok = .ok timeMs

/-- Go's comparison `x >= 0` on a `float64`. -/
def Float64.nonneg : Float64 → Bool
  | .nan => false
  | .inf neg => !neg
  | .fin neg m _ => !neg || m == 0

/-- A host on which every step succeeds: the scratch directory is created at
`/tmp/complexity-test-1`, the file is written, the subprocess prints one line and leaves
the file system as it found it, and the scratch directory is removed. -/
def exampleHost : Host :=
  { mkdirTemp := .ok "/tmp/complexity-test-1".toList
    writeFile := none
    goRun := fun fs _ => ("100,1.5\n".toList, none, fs)
    removeAll := none }

/-- A host on which the subprocess runs into its deadline after printing one line: the
Go tool is killed and leaves its build directory `/tmp/go-build1` behind. -/
def exampleHostTimeout : Host :=
  { mkdirTemp := .ok "/tmp/complexity-test-1".toList
    writeFile := none
    goRun := fun fs _ =>
      ("100,1.5\n".toList, some "signal: killed",
        { fs with dirs := "/tmp/go-build1".toList :: fs.dirs })
    removeAll := none }

/-- A host on which all succeeds but the deferred `os.RemoveAll`, which removes nothing. -/
def exampleHostRemoveFails : Host :=
  { mkdirTemp := .ok "/tmp/complexity-test-1".toList
    writeFile := none
    goRun := fun fs _ => ("100,1.5\n".toList, none, fs)
    removeAll := some ("permission denied", fun _ => true) }

/-- A file system with the temporary directory and one other directory. -/
def exampleFileSystem : os.FileSystem :=
  { dirs := ["/tmp".toList, "/tmp/other".toList]
    files := [("/tmp/other/notes.txt".toList, "kept".toList)] }

/-- A decoded reply of the model that carries a series of its own. -/
def exampleDecoded : AnalysisResult :=
  { Complexity := "O(n)".toList
    Confidence := .fin false 95 0
    StaticAnalysis := ["Visits each element once".toList]
    TestCode := "package main".toList
    PerformanceData := [⟨1, .fin false 1 0⟩, ⟨2, .fin false 1 1⟩] }

/-- An environment in which the model replies with one candidate of one part and the
decoder gives `exampleDecoded`. -/
def exampleEnv : Env :=
  { apiKey := "key".toList
    newClient := none
    template := ⟨"Analyze this ".toList, " code.\nCODE:\n".toList, "\nReturn ONLY JSON.".toList⟩
    generateContent := fun _ => .ok [["```json\n\x7b\x7d\n```".toList]]
    unmarshal := fun _ => .ok exampleDecoded
    host := exampleHost }

/-! ## Facts about the `strings` routines -/

namespace strings

theorem indexFrom_eq_none_iff (substr s : GoString) (i : Nat) :
    indexFrom substr s i = none ↔ ¬ substr <:+: s := by
  induction s generalizing i with
  | nil => cases substr <;> simp [indexFrom]
  | cons c cs ih =>
    by_cases h : substr <+: c :: cs
    · simp [indexFrom, h, List.infix_cons_iff]
    · simp [indexFrom, h, List.infix_cons_iff, ih]

theorem contains_iff (s substr : GoString) : Contains s substr = true ↔ substr <:+: s := by
  have h := indexFrom_eq_none_iff substr s 0
  unfold Contains Index
  cases hi : indexFrom substr s 0 with
  | none => simpa [hi] using h
  | some j => simpa [hi] using h

theorem contains_eq_false_iff (s substr : GoString) :
    Contains s substr = false ↔ ¬ substr <:+: s := by
  rw [← contains_iff]; simp

theorem lastIndexFrom_eq_none_iff (substr s : GoString) (i : Nat) :
    lastIndexFrom substr s i = none ↔ ¬ substr <:+: s := by
  induction s generalizing i with
  | nil => cases substr <;> simp [lastIndexFrom]
  | cons c cs ih =>
    by_cases h : substr <+: c :: cs
    · cases hr : lastIndexFrom substr cs (i + 1) <;> simp [lastIndexFrom, hr, h, List.infix_cons_iff]
    · cases hr : lastIndexFrom substr cs (i + 1) with
      | none => simpa [lastIndexFrom, hr, h, List.infix_cons_iff] using (ih (i + 1)).1 hr
      | some j =>
        have : substr <:+: cs := by
          by_contra hc
          rw [(ih (i + 1)).2 hc] at hr
          cases hr
        simp [lastIndexFrom, hr, List.infix_cons_iff, this]

theorem lastIndexFrom_shift (substr s : GoString) (i : Nat) :
    lastIndexFrom substr s i = (lastIndexFrom substr s 0).map (· + i) := by
  induction s generalizing i with
  | nil => by_cases h : substr.isEmpty <;> simp [lastIndexFrom, h]
  | cons c cs ih =>
    rw [lastIndexFrom, lastIndexFrom, ih (i + 1), ih (0 + 1)]
    cases lastIndexFrom substr cs 0 with
    | none => by_cases h : substr.isPrefixOf (c :: cs) <;> simp [h]
    | some j => simp [Nat.add_assoc, Nat.add_comm 1 i]

theorem lastIndex_append_of_some (substr pre s : GoString) (j : Nat)
    (h : LastIndex s substr = some j) : LastIndex (pre ++ s) substr = some (pre.length + j) := by
  unfold LastIndex at *
  induction pre with
  | nil => simp [h]
  | cons a p ih =>
    rw [List.cons_append, lastIndexFrom, lastIndexFrom_shift, ih]
    simp [Nat.add_assoc, Nat.add_comm, Nat.add_left_comm]

theorem lastIndex_append_of_none (substr pre s : GoString) (j : Nat)
    (h : LastIndex s substr = none) (hj : LastIndex (pre ++ s) substr = some j) :
    j < pre.length := by
  unfold LastIndex at *
  induction pre generalizing j with
  | nil => simp [h] at hj
  | cons a p ih =>
    rw [List.cons_append, lastIndexFrom, lastIndexFrom_shift] at hj
    cases hr : lastIndexFrom substr (p ++ s) 0 with
    | none =>
      rw [hr] at hj
      by_cases hp : substr.isPrefixOf (a :: (p ++ s)) <;> simp [hp] at hj
      subst hj; simp
    | some k =>
      rw [hr] at hj
      simp at hj
      have := ih k hr
      subst hj
      simp; omega

theorem index_first (c : Char) (pre rest : GoString) (h : c ∉ pre) :
    Index (pre ++ c :: rest) [c] = some pre.length := by
  have key : ∀ i, indexFrom [c] (pre ++ c :: rest) i = some (i + pre.length) := by
    induction pre with
    | nil => intro i; simp [indexFrom]
    | cons a p ih =>
      intro i
      have ha : c ≠ a := fun e => h (by simp [e])
      have hp : c ∉ p := fun e => h (by simp [e])
      simp [indexFrom, ha, ih hp (i + 1)]
      omega
  simpa [Index] using key 0

theorem index_some_split (c : Char) (s : GoString) (i : Nat) (h : Index s [c] = some i) :
    s = s.take i ++ c :: s.drop (i + 1) ∧ c ∉ s.take i := by
  have key : ∀ (s : GoString) (k i : Nat), indexFrom [c] s k = some i →
      k ≤ i ∧ s = s.take (i - k) ++ c :: s.drop (i - k + 1) ∧ c ∉ s.take (i - k) := by
    intro s
    induction s with
    | nil => intro k i h; simp [indexFrom] at h
    | cons a t ih =>
      intro k i h
      by_cases ha : c = a
      · subst ha
        simp [indexFrom] at h
        subst h; simp
      · simp [indexFrom, ha] at h
        obtain ⟨h1, h2, h3⟩ := ih (k + 1) i h
        have e : i - k = (i - (k + 1)) + 1 := by omega
        refine ⟨by omega, ?_, ?_⟩
        · rw [e]; simp; exact h2
        · rw [e]; simp [ha]; exact h3
  simpa using (key s 0 i h).2

theorem trimSpace_infix (s : GoString) : TrimSpace s <:+: s := by
  unfold TrimSpace TrimRightFunc TrimLeftFunc
  have h1 : (List.dropWhile unicode.IsSpace s) <:+ s := List.dropWhile_suffix _
  have h2 : List.rdropWhile unicode.IsSpace (List.dropWhile unicode.IsSpace s) <+:
      List.dropWhile unicode.IsSpace s := List.rdropWhile_prefix _ _
  exact List.IsInfix.trans h2.isInfix h1.isInfix

theorem dropWhile_rdropWhile (p : Char → Bool) (l : GoString) (h : l.dropWhile p = l) :
    (l.rdropWhile p).dropWhile p = l.rdropWhile p := by
  obtain ⟨t, ht⟩ := List.rdropWhile_prefix p l
  cases hr : l.rdropWhile p with
  | nil => rfl
  | cons a r =>
    rw [hr] at ht
    by_cases ha : p a = true
    · exfalso
      rw [← ht] at h
      simp only [List.cons_append, List.dropWhile_cons, ha, if_true] at h
      have hlen := congrArg List.length h
      have hsuf : (List.dropWhile p (r ++ t)).length ≤ (r ++ t).length :=
        (List.dropWhile_suffix _).length_le
      simp only [List.length_cons] at hlen
      omega
    · simp [List.dropWhile_cons, ha]

theorem trimSpace_idem (s : GoString) : TrimSpace (TrimSpace s) = TrimSpace s := by
  have e : ∀ t : GoString, TrimSpace t =
      List.rdropWhile unicode.IsSpace (List.dropWhile unicode.IsSpace t) := fun _ => rfl
  rw [e (TrimSpace s), e s,
    dropWhile_rdropWhile _ _ (List.dropWhile_idempotent _ _), List.rdropWhile_idempotent]

end strings

/-! ## The JSON-response extractor -/

theorem fence_eq : fence = [Char.ofNat 96, Char.ofNat 96, Char.ofNat 96] := by decide

theorem fence_not_infix_two (trailing : GoString)
    (htr : ∀ c ∈ trailing, unicode.IsSpace c = true) :
    ¬ fence <:+: Char.ofNat 96 :: Char.ofNat 96 :: trailing := by
  intro h
  have hc := h.sublist.count_le (Char.ofNat 96)
  have h0 : List.count (Char.ofNat 96) trailing = 0 := by
    rw [List.count_eq_zero]
    intro hm
    have := htr _ hm
    revert this
    decide
  rw [fence_eq] at hc
  simp [h0] at hc

theorem lastIndex_fence_trailing (trailing : GoString)
    (htr : ∀ c ∈ trailing, unicode.IsSpace c = true) :
    strings.LastIndex (fence ++ trailing) fence = some 0 := by
  have hn := (strings.lastIndexFrom_eq_none_iff fence
    (Char.ofNat 96 :: Char.ofNat 96 :: trailing) (0 + 1)).2 (fence_not_infix_two trailing htr)
  have hp2 : fence.isPrefixOf (fence ++ trailing) = true := by simp
  have e : fence ++ trailing = Char.ofNat 96 :: (Char.ofNat 96 :: Char.ofNat 96 :: trailing) := by
    rw [fence_eq]; rfl
  rw [e] at hp2
  rw [strings.LastIndex, e, strings.lastIndexFrom, hn]
  simp [hp2]

theorem drop_length_succ_append (pre rest : GoString) (c : Char) :
    List.drop (pre.length + 1) (pre ++ c :: rest) = rest := by
  rw [List.drop_append]; rfl

/-- C3: for a text without the fence marker, `extractJSON` returns the text with its
surrounding white space trimmed and nothing else changed, and extracting a second time
changes nothing. -/
theorem extractJSON_without_fence (text : GoString)
    (h : strings.Contains text fence = false) :
    extractJSON text = strings.TrimSpace text ∧
      extractJSON (extractJSON text) = extractJSON text := by
  have h1 : extractJSON text = strings.TrimSpace text := by simp [extractJSON, h]
  have h2 : strings.Contains (strings.TrimSpace text) fence = false := by
    rw [strings.contains_eq_false_iff] at h ⊢
    exact fun hc => h (List.IsInfix.trans hc (strings.trimSpace_infix text))
  refine ⟨h1, ?_⟩
  rw [h1]
  simp [extractJSON, h2, strings.trimSpace_idem]

theorem extractJSON_without_fence_witness :
    strings.Contains "  \x7b\"a\": 1\x7d\n ".toList fence = false ∧
      extractJSON "  \x7b\"a\": 1\x7d\n ".toList = "\x7b\"a\": 1\x7d".toList ∧
      extractJSON (extractJSON "  \x7b\"a\": 1\x7d\n ".toList) =
        extractJSON "  \x7b\"a\": 1\x7d\n ".toList :=
  ⟨by decide,
    ((extractJSON_without_fence "  \x7b\"a\": 1\x7d\n ".toList (by decide)).1).trans (by decide),
    (extractJSON_without_fence "  \x7b\"a\": 1\x7d\n ".toList (by decide)).2⟩

/-- C4: for a text made of a fence marker, a tag without newline, a newline, a body, a
fence marker and trailing white space, `extractJSON` returns the body with its surrounding
white space trimmed; the body is arbitrary and may itself hold fence markers. -/
theorem extractJSON_fenced (tag body trailing : GoString) (htag : '\n' ∉ tag)
    (htr : ∀ c ∈ trailing, unicode.IsSpace c = true) :
    extractJSON (fence ++ tag ++ newline ++ body ++ fence ++ trailing) =
      strings.TrimSpace body := by
  have e : fence ++ tag ++ newline ++ body ++ fence ++ trailing =
      (fence ++ tag) ++ '\n' :: (body ++ (fence ++ trailing)) := by simp [newline]
  have hc : strings.Contains (fence ++ tag ++ newline ++ body ++ fence ++ trailing) fence = true := by
    rw [strings.contains_iff]
    exact ⟨[], tag ++ newline ++ body ++ fence ++ trailing, by simp⟩
  have hnl : '\n' ∉ fence ++ tag := by
    rw [List.mem_append]
    rintro (h | h)
    · revert h; decide
    · exact htag h
  have hi := strings.index_first '\n' (fence ++ tag) (body ++ (fence ++ trailing)) hnl
  have hl := strings.lastIndex_append_of_some fence body (fence ++ trailing) 0
    (lastIndex_fence_trailing trailing htr)
  have hd := drop_length_succ_append (fence ++ tag) (body ++ (fence ++ trailing)) '\n'
  rw [e]
  rw [e] at hc
  have ht : List.take (body.length + 0) (body ++ (fence ++ trailing)) = body := by
    simp
  simp only [extractJSON, hc, if_true, newline, hi, hd, hl, ht]

theorem extractJSON_fenced_witness :
    '\n' ∉ "json".toList ∧ (∀ c ∈ "\n ".toList, unicode.IsSpace c = true) ∧
      extractJSON (fence ++ "json".toList ++ newline ++ "\x7b\"a\": 1\x7d\n".toList ++ fence ++
        "\n ".toList) = strings.TrimSpace "\x7b\"a\": 1\x7d\n".toList :=
  ⟨by decide, by decide, extractJSON_fenced _ _ _ (by decide) (by decide)⟩

/-- C7, as stated, fails: the text made of an opening fence line and a body, with no
closing fence, contains the fence marker, and `extractJSON` keeps the body where the
described removal (from the last fence marker of the input onward) leaves nothing. -/
theorem extractJSON_fencedRemainder_counterexample :
    strings.Contains ("```json\n\x7b\x7d".toList) fence = true ∧
      extractJSON ("```json\n\x7b\x7d".toList) = "\x7b\x7d".toList ∧
      strings.TrimSpace (fencedRemainder ("```json\n\x7b\x7d".toList)) = [] ∧
      extractJSON ("```json\n\x7b\x7d".toList) ≠
        strings.TrimSpace (fencedRemainder ("```json\n\x7b\x7d".toList)) := by
  decide

/-- C7, amended: for a text that contains the fence marker, `extractJSON` returns the
trimmed text that remains after removing everything up to and including the first newline
and, when the last fence marker of the input comes after that newline (or there is no
newline), everything from that last fence marker onward; when every fence marker is on the
first line, it returns the trimmed text after the first line. -/
theorem extractJSON_with_fence (text : GoString) (h : strings.Contains text fence = true) :
    extractJSON text =
      if lastFenceAfterFirstLine text then strings.TrimSpace (fencedRemainder text)
      else strings.TrimSpace (afterFirstLine text) := by
  have hsome : ∃ j, strings.LastIndex text fence = some j := by
    cases hl : strings.LastIndex text fence with
    | some j => exact ⟨j, rfl⟩
    | none =>
      exfalso
      have := (strings.lastIndexFrom_eq_none_iff fence text 0).1 hl
      exact this ((strings.contains_iff text fence).1 h)
  obtain ⟨j, hj⟩ := hsome
  cases hi : strings.Index text newline with
  | none => simp [extractJSON, h, hi, hj, lastFenceAfterFirstLine, fencedRemainder]
  | some i =>
    have hi2 : strings.Index text ['\n'] = some i := hi
    obtain ⟨hsplit, -⟩ := strings.index_some_split '\n' text i hi
    have hlen : (text.take i ++ ['\n']).length = i + 1 := by
      have : i < text.length := by
        by_contra hn
        have h1 : text.take i = text := List.take_of_length_le (by omega)
        have h2 := congrArg List.length hsplit
        simp [h1] at h2
      simp [List.length_take]; omega
    have hsplit2 : text = (text.take i ++ ['\n']) ++ text.drop (i + 1) := by
      simpa using hsplit
    cases hs : strings.LastIndex (text.drop (i + 1)) fence with
    | some k =>
      have hj2 := strings.lastIndex_append_of_some fence (text.take i ++ ['\n']) _ k hs
      rw [← hsplit2, hj, hlen] at hj2
      have hjk : j = i + 1 + k := by simpa using hj2
      have hlt : i < j := by omega
      have ht : List.drop (i + 1) (List.take (i + 1 + k) text) =
          List.take k (List.drop (i + 1) text) := by
        rw [List.drop_take]; congr 1; omega
      subst hjk
      simp only [extractJSON, h, hi2, hj, hs, lastFenceAfterFirstLine, fencedRemainder,
        newline, if_true, decide_eq_true hlt, ht]
    | none =>
      have hlt : j < i + 1 := by
        have := strings.lastIndex_append_of_none fence (text.take i ++ ['\n']) _ j hs
          (by rw [← hsplit2]; exact hj)
        omega
      have hnlt : ¬ i < j := by omega
      simp only [extractJSON, h, hi2, hj, hs, lastFenceAfterFirstLine, afterFirstLine, newline,
        if_true, decide_eq_false hnlt]
      simp

theorem extractJSON_with_fence_witness :
    strings.Contains ("```json\n\x7b\x7d\n```".toList) fence = true ∧
      extractJSON ("```json\n\x7b\x7d\n```".toList) =
        (if lastFenceAfterFirstLine ("```json\n\x7b\x7d\n```".toList) then
          strings.TrimSpace (fencedRemainder ("```json\n\x7b\x7d\n```".toList))
        else strings.TrimSpace (afterFirstLine ("```json\n\x7b\x7d\n```".toList))) :=
  ⟨by decide, extractJSON_with_fence _ (by decide)⟩

/-! ## Facts about the scanner -/

namespace fmt

theorem isSpace_imp (c : Char) (h : isSpace c = true) : unicode.IsSpace c = true := by
  unfold isSpace at h
  unfold unicode.IsSpace
  by_cases hc : 65536 ≤ c.toNat
  · simp [hc] at h
  · simp only [hc, if_false] at h
    simp only [Bool.or_eq_true, Bool.and_eq_true, decide_eq_true_eq, beq_iff_eq] at h ⊢
    omega

theorem skipSpaceLoop_spec (rs : GoString) :
    ∀ (count : Nat) (rs1 : GoString) (count1 : Nat),
      ss.skipSpaceLoop rs count = .ok (rs1, count1) →
        ∃ sp, rs = sp ++ rs1 ∧ ∀ c ∈ sp, isSpace c = true := by
  induction rs with
  | nil =>
    intro count rs1 count1 h
    simp only [ss.skipSpaceLoop, Except.ok.injEq, Prod.mk.injEq] at h
    exact ⟨[], by simp [h.1], by simp⟩
  | cons r rest ih =>
    intro count rs1 count1 h
    rw [ss.skipSpaceLoop] at h
    split_ifs at h with h1 h2 h3 h4
    · simp only [Except.ok.injEq, Prod.mk.injEq] at h
      exact ⟨[], by simp [h.1], by simp⟩
    · obtain ⟨sp, hsp, hall⟩ := ih _ _ _ h
      have hr : r = '\r' := by
        simp only [Bool.and_eq_true, decide_eq_true_eq] at h2
        exact h2.1
      refine ⟨r :: sp, by simp [hsp], ?_⟩
      intro c hc
      rcases List.mem_cons.1 hc with e | e
      · rw [e, hr]; decide
      · exact hall c e
    · simp only [Except.ok.injEq, Prod.mk.injEq] at h
      exact ⟨[], by simp [h.1], by simp⟩
    · obtain ⟨sp, hsp, hall⟩ := ih _ _ _ h
      refine ⟨r :: sp, by simp [hsp], ?_⟩
      intro c hc
      rcases List.mem_cons.1 hc with e | e
      · rw [e]; simpa using h4
      · exact hall c e

theorem skipSpace_spec (s s1 : ss) (h : s.SkipSpace = .ok s1) :
    s1.buf = s.buf ∧ ∃ sp, s.rs = sp ++ s1.rs ∧ ∀ c ∈ sp, isSpace c = true := by
  unfold ss.SkipSpace at h
  cases hl : ss.skipSpaceLoop s.rs s.count with
  | error e => simp [hl] at h
  | ok r =>
    obtain ⟨rs1, count1⟩ := r
    simp only [hl, Except.ok.injEq] at h
    subst h
    exact ⟨rfl, skipSpaceLoop_spec _ _ _ _ hl⟩

theorem accept_inv (s : ss) (ok : GoString) :
    (s.accept ok).2.buf ++ (s.accept ok).2.rs = s.buf ++ s.rs := by
  unfold ss.accept ss.getRune
  by_cases hc : hugeWid ≤ s.count
  · simp [hc]
  · cases hrs : s.rs with
    | nil => simp [hc, hrs]
    | cons r rest =>
      by_cases hm : r ∈ ok
      · simp [hc, hrs, hm]
      · simp [hc, hrs, hm]

theorem andAccept_inv (r : Bool × ss) (ok : GoString) :
    (ss.andAccept r ok).2.buf ++ (ss.andAccept r ok).2.rs = r.2.buf ++ r.2.rs := by
  unfold ss.andAccept
  split_ifs
  · exact accept_inv _ _
  · rfl

theorem acceptLoop_inv (ok : GoString) (rs : GoString) :
    ∀ (count : Nat) (buf : GoString),
      (ss.acceptLoop ok rs count buf).2.2 ++ (ss.acceptLoop ok rs count buf).1 = buf ++ rs := by
  induction rs with
  | nil => intro count buf; simp [ss.acceptLoop]
  | cons r rest ih =>
    intro count buf
    rw [ss.acceptLoop]
    split_ifs with h1 h2
    · rfl
    · rw [ih]; simp
    · rfl

theorem acceptAll_inv (s : ss) (ok : GoString) :
    (s.acceptAll ok).buf ++ (s.acceptAll ok).rs = s.buf ++ s.rs := by
  unfold ss.acceptAll
  exact acceptLoop_inv ok s.rs s.count s.buf

theorem scanNumber_spec (s s1 : ss) (digits tok : GoString)
    (h : s.scanNumber digits = .ok (tok, s1)) :
    tok = s1.buf ∧ s1.buf ++ s1.rs = s.buf ++ s.rs := by
  unfold ss.scanNumber at h
  cases hn : s.notEOF with
  | error e => simp [hn] at h
  | ok u =>
    simp only [hn] at h
    split_ifs at h with ha
    simp only [Except.ok.injEq, Prod.mk.injEq] at h
    obtain ⟨h1, h2⟩ := h
    subst h2
    exact ⟨h1.symm, by rw [acceptAll_inv, accept_inv]⟩

theorem scanInt_spec (s s1 : ss) (i : Int) (hb : s.buf = []) (h : s.scanInt = .ok (i, s1)) :
    ∃ sp tok, s.rs = sp ++ (tok ++ s1.rs) ∧ (∀ c ∈ sp, isSpace c = true) ∧
      strconv.ParseInt tok = .ok i := by
  unfold ss.scanInt at h
  cases hs : s.SkipSpace with
  | error e => simp [hs] at h
  | ok s2 =>
    simp only [hs] at h
    obtain ⟨hbuf, sp, hsp, hall⟩ := skipSpace_spec s s2 hs
    cases hn : s2.notEOF with
    | error e => simp [hn] at h
    | ok u =>
      simp only [hn] at h
      cases hnum : (s2.accept sign).2.scanNumber decimalDigits with
      | error e => simp [hnum] at h
      | ok r =>
        obtain ⟨tok, s3⟩ := r
        simp only [hnum] at h
        cases hp : strconv.ParseInt tok with
        | error e => simp [hp] at h
        | ok j =>
          simp only [hp, Except.ok.injEq, Prod.mk.injEq] at h
          obtain ⟨hj, hs3⟩ := h
          subst hj hs3
          obtain ⟨htok, hinv⟩ := scanNumber_spec _ _ _ _ hnum
          rw [accept_inv, hbuf, hb, List.nil_append] at hinv
          exact ⟨sp, tok, by rw [hsp, ← hinv, htok], hall, hp⟩

theorem floatMantissa_inv (s : ss) (digits : GoString) :
    (ss.floatMantissa s digits).buf ++ (ss.floatMantissa s digits).rs = s.buf ++ s.rs := by
  unfold ss.floatMantissa
  simp only []
  split_ifs
  · rw [acceptAll_inv, accept_inv, acceptAll_inv]
  · rw [accept_inv, acceptAll_inv]

theorem floatExponent_inv (s : ss) (exp : GoString) :
    (ss.floatExponent s exp).buf ++ (ss.floatExponent s exp).rs = s.buf ++ s.rs := by
  unfold ss.floatExponent
  simp only []
  split_ifs
  · rw [acceptAll_inv, accept_inv, accept_inv]
  · rw [accept_inv]

theorem floatNumber_inv (s : ss) :
    (ss.floatNumber s).buf ++ (ss.floatNumber s).rs = s.buf ++ s.rs := by
  unfold ss.floatNumber
  simp only []
  split_ifs
  · rw [floatExponent_inv, floatMantissa_inv, andAccept_inv, accept_inv]
  · rw [floatExponent_inv, floatMantissa_inv, andAccept_inv, accept_inv]

theorem floatInf_inv (s : ss) :
    (ss.floatInf s).2.buf ++ (ss.floatInf s).2.rs = s.buf ++ s.rs := by
  unfold ss.floatInf
  rw [andAccept_inv, andAccept_inv, accept_inv, accept_inv]

theorem floatNaN_inv (s : ss) :
    (ss.floatNaN s).2.buf ++ (ss.floatNaN s).2.rs = s.buf ++ s.rs := by
  unfold ss.floatNaN
  rw [andAccept_inv, andAccept_inv, accept_inv]

theorem floatToken_spec (s : ss) :
    s.floatToken.1 = s.floatToken.2.buf ∧ s.floatToken.2.buf ++ s.floatToken.2.rs = s.rs := by
  unfold ss.floatToken
  simp only []
  split_ifs
  · exact ⟨rfl, by rw [floatNaN_inv]; rfl⟩
  · exact ⟨rfl, by rw [floatInf_inv, floatNaN_inv]; rfl⟩
  · exact ⟨rfl, by rw [floatNumber_inv, floatInf_inv, floatNaN_inv]; rfl⟩

theorem scanOneFloat_spec (s s1 : ss) (f : Float64) (h : s.scanOneFloat = .ok (f, s1)) :
    ∃ sp ftok, s.rs = sp ++ (ftok ++ s1.rs) ∧ (∀ c ∈ sp, isSpace c = true) ∧
      convertFloat ftok = .ok f := by
  unfold ss.scanOneFloat at h
  cases hs : ss.SkipSpace { s with buf := [] } with
  | error e => simp [hs] at h
  | ok s2 =>
    simp only [hs] at h
    obtain ⟨-, sp, hsp, hall⟩ := skipSpace_spec _ s2 hs
    cases hn : s2.notEOF with
    | error e => simp [hn] at h
    | ok u =>
      simp only [hn] at h
      cases hc : convertFloat s2.floatToken.1 with
      | error e => simp [hc] at h
      | ok g =>
        simp only [hc, Except.ok.injEq, Prod.mk.injEq] at h
        obtain ⟨hg, hs1⟩ := h
        subst hg hs1
        obtain ⟨htok, hinv⟩ := floatToken_spec s2
        refine ⟨sp, s2.floatToken.1, ?_, hall, hc⟩
        rw [htok, hinv]
        exact hsp

theorem advanceComma_spec (s s1 : ss) (h : s.advanceComma = .ok s1) : s.rs = ',' :: s1.rs := by
  unfold ss.advanceComma ss.getRune at h
  by_cases hc : hugeWid ≤ s.count
  · simp [hc] at h
  · cases hrs : s.rs with
    | nil => simp [hc, hrs] at h
    | cons r rest =>
      simp only [hc, hrs, if_false] at h
      split_ifs at h with hr
      simp only [Except.ok.injEq] at h
      subst h
      simp [hr]

end fmt

/-! ## The performance-series parser -/

theorem sscanf_begins (line : GoString) (size : Int) (timeMs : Float64)
    (h : fmt.Sscanf line = .ok (size, timeMs)) :
    ∃ sp0 tok sp ftok rest : GoString, line = sp0 ++ (tok ++ ',' :: (sp ++ (ftok ++ rest))) ∧
      (∀ c ∈ sp0, fmt.isSpace c = true) ∧ strconv.ParseInt tok = .ok size ∧
      (∀ c ∈ sp, fmt.isSpace c = true) ∧ fmt.convertFloat ftok = .ok timeMs := by
  unfold fmt.Sscanf at h
  cases h1 : fmt.ss.SkipSpace ⟨line, 0, []⟩ with
  | error e => simp [h1] at h
  | ok s1 =>
    simp only [h1] at h
    obtain ⟨hb1, spa, hspa, halla⟩ := fmt.skipSpace_spec _ s1 h1
    cases h2 : s1.scanOneInt with
    | error e => simp [h2] at h
    | ok r2 =>
      obtain ⟨n, s2⟩ := r2
      simp only [h2] at h
      obtain ⟨spb, tok, hspb, hallb, hint⟩ :=
        fmt.scanInt_spec { s1 with buf := [] } s2 n rfl h2
      cases h3 : s2.advanceComma with
      | error e => simp [h3] at h
      | ok s3 =>
        simp only [h3] at h
        have hcomma := fmt.advanceComma_spec s2 s3 h3
        cases h4 : s3.SkipSpace with
        | error e => simp [h4] at h
        | ok s4 =>
          simp only [h4] at h
          obtain ⟨-, spc, hspc, hallc⟩ := fmt.skipSpace_spec s3 s4 h4
          cases h5 : s4.scanOneFloat with
          | error e => simp [h5] at h
          | ok r5 =>
            obtain ⟨f, s5⟩ := r5
            simp only [h5, Except.ok.injEq, Prod.mk.injEq] at h
            obtain ⟨hn, hf⟩ := h
            subst hn hf
            obtain ⟨spd, ftok, hspd, halld, hconv⟩ := fmt.scanOneFloat_spec s4 s5 f h5
            refine ⟨spa ++ spb, tok, spc ++ spd, ftok, s5.rs, ?_, ?_, hint, ?_, hconv⟩
            · simp only at hspa hspb
              rw [hspa, hspb, hcomma, hspc, hspd]
              simp
            · intro c hc
              rcases List.mem_append.1 hc with e | e
              · exact halla c e
              · exact hallb c e
            · intro c hc
              rcases List.mem_append.1 hc with e | e
              · exact hallc c e
              · exact halld c e

theorem trimSpace_head_not_space (line : GoString) (c : Char) (t : GoString)
    (h : strings.TrimSpace line = c :: t) : unicode.IsSpace c = false := by
  have e : strings.TrimSpace line =
      List.rdropWhile unicode.IsSpace (List.dropWhile unicode.IsSpace line) := rfl
  have hd := strings.dropWhile_rdropWhile unicode.IsSpace _
    (List.dropWhile_idempotent unicode.IsSpace line)
  rw [← e, h] at hd
  by_cases hc : unicode.IsSpace c = true
  · exfalso
    simp only [List.dropWhile_cons, hc, if_true] at hd
    have hlen := congrArg List.length hd
    have hsuf : (List.dropWhile unicode.IsSpace t).length ≤ t.length :=
      (List.dropWhile_suffix _).length_le
    simp only [List.length_cons] at hlen
    omega
  · simpa using hc

theorem sscanf_trimmed_begins (line : GoString) (size : Int) (timeMs : Float64)
    (h : fmt.Sscanf (strings.TrimSpace line) = .ok (size, timeMs)) :
    beginsTwoFields (strings.TrimSpace line) size timeMs := by
  obtain ⟨sp0, tok, sp, ftok, rest, hl, h0, hint, hsp, hconv⟩ := sscanf_begins _ _ _ h
  cases sp0 with
  | nil => exact ⟨tok, sp, ftok, rest, by simpa using hl, hint, hsp, hconv⟩
  | cons c t =>
    exfalso
    have h1 := trimSpace_head_not_space line c _ hl
    have h2 := fmt.isSpace_imp c (h0 c (by simp))
    rw [h1] at h2
    cases h2

theorem parseLines_eq (lines : List GoString) :
    ∀ perfData : List PerformancePoint, parseLines lines perfData =
      perfData ++ ((lines.map strings.TrimSpace).filter (· ≠ [])).filterMap scanLine := by
  induction lines with
  | nil => intro perfData; simp [parseLines]
  | cons line rest ih =>
    intro perfData
    rw [parseLines]
    by_cases hb : strings.TrimSpace line = []
    · simp [hb, ih]
    · cases hs : fmt.Sscanf (strings.TrimSpace line) with
      | error e => simp [hb, hs, ih, scanLine]
      | ok r => simp [hb, hs, ih, scanLine]

theorem parsePerformance_eq (output : GoString) :
    parsePerformance output =
      if scannedPoints output = [] then .error "no performance data parsed"
      else .ok (scannedPoints output) := by
  unfold parsePerformance scannedPoints
  simp only [parseLines_eq, List.nil_append, List.length_eq_zero]

theorem returnedSeries_parsePerformance (output : GoString) :
    returnedSeries (parsePerformance output) = scannedPoints output := by
  rw [parsePerformance_eq]
  split_ifs with h
  · simp [returnedSeries, h]
  · rfl

theorem scannedPoints_eq_nil_iff (output : GoString) :
    scannedPoints output = [] ↔
      ∀ line ∈ strings.SplitSeq output '\n', strings.TrimSpace line = [] ∨
        ∃ e, fmt.Sscanf (strings.TrimSpace line) = .error e := by
  unfold scannedPoints
  rw [List.filterMap_eq_nil_iff]
  constructor
  · intro h line hl
    by_cases hb : strings.TrimSpace line = []
    · exact Or.inl hb
    · right
      have := h (strings.TrimSpace line) (by simp [List.mem_filter, hb]; exact ⟨line, hl, rfl⟩)
      unfold scanLine at this
      cases hs : fmt.Sscanf (strings.TrimSpace line) with
      | error e => exact ⟨e, rfl⟩
      | ok r => simp [hs] at this
  · intro h t ht
    simp only [List.mem_filter, List.mem_map, decide_eq_true_eq] at ht
    obtain ⟨⟨line, hl, rfl⟩, hne⟩ := ht
    rcases h line hl with hb | ⟨e, he⟩
    · exact absurd hb hne
    · simp [scanLine, he]

theorem mem_scannedPoints (output : GoString) (p : PerformancePoint)
    (h : p ∈ scannedPoints output) :
    ∃ line ∈ strings.SplitSeq output '\n',
      fmt.Sscanf (strings.TrimSpace line) = .ok (p.Size, p.Time) := by
  unfold scannedPoints at h
  simp only [List.mem_filterMap, List.mem_filter, List.mem_map, decide_eq_true_eq] at h
  obtain ⟨t, ⟨⟨line, hl, rfl⟩, -⟩, hs⟩ := h
  refine ⟨line, hl, ?_⟩
  unfold scanLine at hs
  cases hr : fmt.Sscanf (strings.TrimSpace line) with
  | error e => simp [hr] at hs
  | ok r =>
    obtain ⟨a, b⟩ := r
    simp only [hr, Option.some.injEq] at hs
    subst hs
    rfl

theorem parseInt_range (s : GoString) (i : Int) (h : strconv.ParseInt s = .ok i) :
    -(2 : Int) ^ 63 ≤ i ∧ i < (2 : Int) ^ 63 := by
  unfold strconv.ParseInt at h
  by_cases h0 : s = []
  · simp [h0] at h
  · simp only [h0, if_false] at h
    revert h
    generalize (if s.head? = some '+' ∨ s.head? = some '-' then s.tail else s) = s1
    generalize decide (s.head? = some '-') = neg
    intro h
    cases hu : strconv.ParseUint s1 with
    | error e => cases e <;> simp [hu] at h
    | ok un =>
      simp only [hu] at h
      cases neg
      · simp only [Bool.not_false, Bool.true_and, decide_eq_true_eq, Bool.false_and,
          Bool.false_eq_true, if_false] at h
        split_ifs at h with h1
        simp only [Except.ok.injEq] at h
        subst h
        constructor <;> omega
      · simp only [Bool.not_true, Bool.false_and, Bool.false_eq_true, if_false, Bool.true_and,
          decide_eq_true_eq, if_true] at h
        split_ifs at h with h1
        simp only [Except.ok.injEq] at h
        subst h
        constructor <;> omega

/-- C1: the series the parser returns holds the points of exactly the lines that scan (the
output split on the newline, each line trimmed, blank lines left out), in the order of the
lines; and the output `"100,1.5\n200,3.25\nnot-a-line\n\n"` gives exactly the two points
`(100, 1.5)` and `(200, 3.25)`. -/
theorem parsePerformance_series :
    (∀ output : GoString, returnedSeries (parsePerformance output) = scannedPoints output) ∧
      parsePerformance "100,1.5\n200,3.25\nnot-a-line\n\n".toList =
        .ok [⟨100, .fin false 3 (-1)⟩, ⟨200, .fin false 13 (-2)⟩] := by
  exact ⟨returnedSeries_parsePerformance, by decide⟩

/-- C2: on the output of a subprocess that exited without error, the parser returns the
error `no performance data parsed` exactly when no line of the output scans as a point;
that is its only error, it comes with no series, and a series returned without error is
never empty. -/
theorem parsePerformance_error_iff (output : GoString) :
    (parsePerformance output = .error "no performance data parsed" ↔
        ∀ line ∈ strings.SplitSeq output '\n', strings.TrimSpace line = [] ∨
          ∃ e, fmt.Sscanf (strings.TrimSpace line) = .error e) ∧
      (∀ e, parsePerformance output = .error e →
        e = "no performance data parsed" ∧ returnedSeries (parsePerformance output) = []) ∧
      (∀ series, parsePerformance output = .ok series → series ≠ []) := by
  rw [← scannedPoints_eq_nil_iff, parsePerformance_eq]
  by_cases h : scannedPoints output = []
  · simp [h, returnedSeries]
  · simp only [h, if_false]
    refine ⟨?_, ?_, ?_⟩
    · constructor
      · intro he; cases he
      · intro hn; exact hn.elim
    · intro e he; cases he
    · intro series hs
      simp only [Except.ok.injEq] at hs
      exact hs ▸ h

/-- C8, as stated, fails: the trimmed, non-blank lines `100,1.5,7` and `100,1.5ms` are not
of the exact two-field form, and the parser produces the point `(100, 1.5)` for each. -/
theorem parseLines_trailing_counterexample :
    (strings.TrimSpace "100,1.5,7".toList = "100,1.5,7".toList ∧ "100,1.5,7".toList ≠ [] ∧
        exactTwoFields "100,1.5,7".toList = false ∧
        parseLines ["100,1.5,7".toList] [] = [⟨100, .fin false 3 (-1)⟩]) ∧
      (strings.TrimSpace "100,1.5ms".toList = "100,1.5ms".toList ∧ "100,1.5ms".toList ≠ [] ∧
        exactTwoFields "100,1.5ms".toList = false ∧
        parseLines ["100,1.5ms".toList] [] = [⟨100, .fin false 3 (-1)⟩]) := by
  decide

/-- C8, amended: for every output line, the parser either produces no point, or the
trimmed line begins with the two-field form (an integer text, a comma, optional white
space, a number text) and the point produced holds the values of the two fields; the line
may go on after the number. -/
theorem parseLines_point_begins (line : GoString) (perfData : List PerformancePoint) :
    parseLines [line] perfData = perfData ∨
      ∃ size timeMs, beginsTwoFields (strings.TrimSpace line) size timeMs ∧
        parseLines [line] perfData = perfData ++ [⟨size, timeMs⟩] := by
  rw [parseLines]
  by_cases hb : strings.TrimSpace line = []
  · left; simp [hb, parseLines]
  · cases hs : fmt.Sscanf (strings.TrimSpace line) with
    | error e => left; simp [hb, hs, parseLines]
    | ok r =>
      obtain ⟨size, timeMs⟩ := r
      right
      exact ⟨size, timeMs, sscanf_trimmed_begins line size timeMs hs, by simp [hb, hs, parseLines]⟩

/-- C9, as stated, fails: the output `-5,-1.0` gives the series with the one point
`(-5, -1.0)`, whose size and time are both negative. -/
theorem parsePerformance_negative_counterexample :
    parsePerformance "-5,-1.0".toList = .ok [⟨-5, .fin true 1 0⟩] ∧
      ¬ (∀ p ∈ returnedSeries (parsePerformance "-5,-1.0".toList),
        0 ≤ p.Size ∧ Float64.nonneg p.Time = true) := by
  decide

/-- C9, amended: every point of the series the parser returns is what `Sscanf` read from
one trimmed line of the output, sign included, and its size lies in the range of the
64-bit `int`, from `-2^63` to `2^63 - 1`. -/
theorem parsePerformance_point_range (output : GoString) (p : PerformancePoint)
    (h : p ∈ returnedSeries (parsePerformance output)) :
    -(2 : Int) ^ 63 ≤ p.Size ∧ p.Size < (2 : Int) ^ 63 ∧
      ∃ line ∈ strings.SplitSeq output '\n',
        fmt.Sscanf (strings.TrimSpace line) = .ok (p.Size, p.Time) := by
  rw [returnedSeries_parsePerformance output] at h
  obtain ⟨line, hl, hs⟩ := mem_scannedPoints output p h
  obtain ⟨_, tok, _, _, _, _, _, hint, _, _⟩ := sscanf_begins _ _ _ hs
  have hr := parseInt_range tok p.Size hint
  exact ⟨hr.1, hr.2, line, hl, hs⟩

theorem parsePerformance_point_range_witness :
    (⟨-5, .fin true 1 0⟩ : PerformancePoint) ∈
        returnedSeries (parsePerformance "7,2\n-5,-1.0\n".toList) ∧
      -(2 : Int) ^ 63 ≤ -5 ∧ (-5 : Int) < (2 : Int) ^ 63 ∧
      ∃ line ∈ strings.SplitSeq "7,2\n-5,-1.0\n".toList '\n',
        fmt.Sscanf (strings.TrimSpace line) = .ok (-5, .fin true 1 0) :=
  ⟨by decide, parsePerformance_point_range "7,2\n-5,-1.0\n".toList ⟨-5, .fin true 1 0⟩ (by decide)⟩

/-! ## The benchmark harness, the model query and the relay -/

theorem runPerformanceTestBody_dirs (h : Host) (fs : os.FileSystem)
    (tmpDir testCode d : GoString) (hframe : leavesOtherDirectories h tmpDir)
    (hd : os.outside tmpDir d = true) :
    d ∈ (runPerformanceTestBody h fs tmpDir testCode).2.dirs ↔ d ∈ fs.dirs := by
  unfold runPerformanceTestBody os.WriteFile
  rcases hw : h.writeFile with _ | ⟨e, _ | left⟩
  · simp only []
    have hf := hframe
      { fs with
        files := (tmpDir ++ "/main.go".toList, testCode) ::
          fs.files.filter fun f => f.1 ≠ tmpDir ++ "/main.go".toList }
      (tmpDir ++ "/main.go".toList) d hd
    rcases hr : h.goRun _ _ with ⟨output, _ | e, fs2⟩
    · rw [hr] at hf; exact hf
    · rw [hr] at hf; exact hf
  · exact Iff.rfl
  · exact Iff.rfl

/-- C5: for a request whose body decodes and whose code field is the empty string, the
relay answers with status 400 and the message `Code is required`, whatever the language
field, and makes no call to `services.AnalyzeWithGemini`: the log of calls is empty and
the world the service acts on is as it was. -/
theorem analyzeCode_empty_code {σ : Type}
    (svc : GoString → GoString → σ → Except String AnalysisResult × σ)
    (req : AnalyzeRequest) (w : σ) (h : req.Code = []) :
    (AnalyzeCode svc (.ok req) w).response = ⟨400, .error "Code is required"⟩ ∧
      (AnalyzeCode svc (.ok req) w).calls = [] ∧ (AnalyzeCode svc (.ok req) w).world = w := by
  simp [AnalyzeCode, h]

theorem analyzeCode_empty_code_witness :
    (⟨[], "go".toList⟩ : AnalyzeRequest).Code = [] ∧
      (AnalyzeCode (AnalyzeWithGemini exampleEnv) (.ok ⟨[], "go".toList⟩)
        exampleFileSystem).response = ⟨400, .error "Code is required"⟩ ∧
      (AnalyzeCode (AnalyzeWithGemini exampleEnv) (.ok ⟨[], "go".toList⟩)
        exampleFileSystem).calls = [] ∧
      (AnalyzeCode (AnalyzeWithGemini exampleEnv) (.ok ⟨[], "go".toList⟩)
        exampleFileSystem).world = exampleFileSystem :=
  ⟨rfl, analyzeCode_empty_code (AnalyzeWithGemini exampleEnv) ⟨[], "go".toList⟩
    exampleFileSystem rfl⟩

/-- C6: once the reply of the model has been decoded, whatever the reply carries as
`performanceData` and whatever the harness does, `AnalyzeWithGemini` returns without
error; the result has the decoded complexity, confidence, static analysis and test code,
and its `performanceData` is the series of the harness when the harness succeeded and the
empty sequence when it failed. -/
theorem analyzeWithGemini_performanceData (env : Env) (code language part : GoString)
    (parts : List GoString) (cands : List (List GoString)) (decoded : AnalysisResult)
    (fs : os.FileSystem) (hkey : env.apiKey ≠ []) (hclient : env.newClient = none)
    (hresp : env.generateContent (buildAnalysisPrompt env.template code language) =
      .ok ((part :: parts) :: cands))
    (hdec : env.unmarshal (extractJSON part) = .ok decoded) :
    (AnalyzeWithGemini env code language fs).1 =
        .ok { decoded with
          PerformanceData :=
            returnedSeries (runPerformanceTest env.host fs decoded.TestCode).1 } ∧
      (∀ e, (runPerformanceTest env.host fs decoded.TestCode).1 = .error e →
        (AnalyzeWithGemini env code language fs).1 = .ok { decoded with PerformanceData := [] }) ∧
      (∀ series, (runPerformanceTest env.host fs decoded.TestCode).1 = .ok series →
        (AnalyzeWithGemini env code language fs).1 =
          .ok { decoded with PerformanceData := series }) := by
  have key : (AnalyzeWithGemini env code language fs).1 =
      .ok { decoded with
        PerformanceData :=
          returnedSeries (runPerformanceTest env.host fs decoded.TestCode).1 } := by
    unfold AnalyzeWithGemini
    simp only [hkey, if_false, hclient, hresp, hdec]
    rcases hr : runPerformanceTest env.host fs decoded.TestCode with ⟨_ | series, fs1⟩ <;> rfl
  refine ⟨key, fun e he => ?_, fun series hs => ?_⟩
  · rw [key, he]; rfl
  · rw [key, hs]; rfl

theorem analyzeWithGemini_performanceData_witness :
    exampleEnv.apiKey ≠ [] ∧ exampleEnv.newClient = none ∧
      (AnalyzeWithGemini exampleEnv "x".toList "go".toList exampleFileSystem).1 =
        .ok { exampleDecoded with PerformanceData := [⟨100, .fin false 3 (-1)⟩] } :=
  ⟨by decide, rfl,
    ((analyzeWithGemini_performanceData exampleEnv "x".toList "go".toList
      "```json\n\x7b\x7d\n```".toList [] [] exampleDecoded exampleFileSystem
      (by decide) rfl rfl rfl).1).trans (by decide)⟩

/-- C10, as stated, fails. On a host where the Go tool is killed at the deadline and
leaves its build directory behind, the scratch directory is created and removed, and yet a
directory that did not exist before the call exists after it. On a host where the deferred
`os.RemoveAll` fails, whose error the code drops, the scratch directory still exists when
the call returns. -/
theorem runPerformanceTest_cleanup_counterexample :
    (os.MkdirTemp exampleHostTimeout.mkdirTemp exampleFileSystem =
          .ok ("/tmp/complexity-test-1".toList,
            { exampleFileSystem with
              dirs := "/tmp/complexity-test-1".toList :: exampleFileSystem.dirs }) ∧
        "/tmp/go-build1".toList ≠ "/tmp/complexity-test-1".toList ∧
        "/tmp/go-build1".toList ∉ exampleFileSystem.dirs ∧
        "/tmp/go-build1".toList ∈
          (runPerformanceTest exampleHostTimeout exampleFileSystem
            "package main".toList).2.dirs) ∧
      (os.MkdirTemp exampleHostRemoveFails.mkdirTemp exampleFileSystem =
          .ok ("/tmp/complexity-test-1".toList,
            { exampleFileSystem with
              dirs := "/tmp/complexity-test-1".toList :: exampleFileSystem.dirs }) ∧
        "/tmp/complexity-test-1".toList ∈
          (runPerformanceTest exampleHostRemoveFails exampleFileSystem
            "package main".toList).2.dirs) := by
  decide

/-- C10, amended: once `runPerformanceTest` has created its scratch directory, and
provided the deferred `os.RemoveAll` succeeds, then whatever the program text and whatever
happens next (the write fails, the subprocess fails or runs into its deadline, no line
scans, or all succeeds), that directory does not exist when the call returns and no
directory and no file is left inside it; and when the subprocess itself leaves the
directories outside the scratch directory as they are, the directories outside it after
the call are those that existed before the call. -/
theorem runPerformanceTest_cleanup (h : Host) (fs fs1 : os.FileSystem)
    (testCode tmpDir : GoString)
    (hmk : os.MkdirTemp h.mkdirTemp fs = .ok (tmpDir, fs1))
    (hrm : h.removeAll = none) :
    tmpDir ∈ fs1.dirs ∧ tmpDir ∉ (runPerformanceTest h fs testCode).2.dirs ∧
      (∀ d ∈ (runPerformanceTest h fs testCode).2.dirs, os.inside tmpDir d = false) ∧
      (∀ f ∈ (runPerformanceTest h fs testCode).2.files,
        f.1 ≠ tmpDir ∧ os.inside tmpDir f.1 = false) ∧
      (leavesOtherDirectories h tmpDir → ∀ d, os.outside tmpDir d = true →
        (d ∈ (runPerformanceTest h fs testCode).2.dirs ↔ d ∈ fs.dirs)) := by
  have hmk2 := hmk
  unfold os.MkdirTemp at hmk2
  cases hm : h.mkdirTemp with
  | error e => simp [hm] at hmk2
  | ok name =>
    simp only [hm] at hmk2
    split_ifs at hmk2 with hex
    simp only [Except.ok.injEq, Prod.mk.injEq] at hmk2
    obtain ⟨hname, hfs1⟩ := hmk2
    subst hname
    have hrun : (runPerformanceTest h fs testCode).2 =
        (os.RemoveAll none (runPerformanceTestBody h fs1 name testCode).2 name).2 := by
      unfold runPerformanceTest
      rw [hmk, hrm]
    have hout : ∀ d : GoString, os.outside name d = true ↔ d ≠ name ∧ os.inside name d = false := by
      intro d
      simp [os.outside]
    refine ⟨by simp [← hfs1], ?_, ?_, ?_, ?_⟩
    · intro hc
      rw [hrun] at hc
      simp only [os.RemoveAll, List.mem_filter] at hc
      exact ((hout name).1 hc.2).1 rfl
    · intro d hd
      rw [hrun] at hd
      simp only [os.RemoveAll, List.mem_filter] at hd
      exact ((hout d).1 hd.2).2
    · intro f hf
      rw [hrun] at hf
      simp only [os.RemoveAll, List.mem_filter] at hf
      exact (hout f.1).1 hf.2
    · intro hframe d hd
      rw [hrun]
      simp only [os.RemoveAll, List.mem_filter, hd, and_true]
      rw [runPerformanceTestBody_dirs h fs1 name testCode d hframe hd, ← hfs1]
      simp only [List.mem_cons]
      constructor
      · rintro (e | e)
        · exact absurd e ((hout d).1 hd).1
        · exact e
      · exact Or.inr

theorem runPerformanceTest_cleanup_witness :
    os.MkdirTemp exampleHostTimeout.mkdirTemp exampleFileSystem =
        .ok ("/tmp/complexity-test-1".toList,
          { exampleFileSystem with
            dirs := "/tmp/complexity-test-1".toList :: exampleFileSystem.dirs }) ∧
      exampleHostTimeout.removeAll = none ∧
      "/tmp/complexity-test-1".toList ∉
        (runPerformanceTest exampleHostTimeout exampleFileSystem "package main".toList).2.dirs ∧
      (∀ f ∈
        (runPerformanceTest exampleHostTimeout exampleFileSystem "package main".toList).2.files,
          f.1 ≠ "/tmp/complexity-test-1".toList ∧
            os.inside "/tmp/complexity-test-1".toList f.1 = false) ∧
      leavesOtherDirectories exampleHost "/tmp/complexity-test-1".toList ∧
      (∀ d, os.outside "/tmp/complexity-test-1".toList d = true →
        (d ∈ (runPerformanceTest exampleHost exampleFileSystem "package main".toList).2.dirs ↔
          d ∈ exampleFileSystem.dirs)) :=
  ⟨by decide, rfl,
    (runPerformanceTest_cleanup exampleHostTimeout exampleFileSystem
      { exampleFileSystem with
        dirs := "/tmp/complexity-test-1".toList :: exampleFileSystem.dirs }
      "package main".toList "/tmp/complexity-test-1".toList (by decide) rfl).2.1,
    (runPerformanceTest_cleanup exampleHostTimeout exampleFileSystem
      { exampleFileSystem with
        dirs := "/tmp/complexity-test-1".toList :: exampleFileSystem.dirs }
      "package main".toList "/tmp/complexity-test-1".toList (by decide) rfl).2.2.2.1,
    fun _ _ _ _ => Iff.rfl,
    (runPerformanceTest_cleanup exampleHost exampleFileSystem
      { exampleFileSystem with
        dirs := "/tmp/complexity-test-1".toList :: exampleFileSystem.dirs }
      "package main".toList "/tmp/complexity-test-1".toList (by decide) rfl).2.2.2.2
      (fun _ _ _ _ => Iff.rfl)⟩

end ComplexityAnalyzer
